import Mathlib

/-!
# Verification of `unlike.py` (pyunlike)

A shallow embedding of the folder-comparison tool `unlike.py` together with
proofs about its reconciliation (`FolderMerger.merge`), its filter chain
(`FolderCrawler.add_filter`, `filter_out_ignored_files`) and the CLI wiring
(`main`).

Paths are modelled as plain strings over the POSIX separator `/`.  The
functions `pjoin` and `relpath` model `os.path.join` and `os.path.relpath`
for relative POSIX paths that contain no `.`/`..` components (the only paths
the program ever produces: `os.walk` yields root-prefixed directory names).
-/

/-! ## Path model (`os.path.join`, `os.path.relpath`) -/

/-- Split a character list on `'/'`. Auxiliary for `pathComponents`. -/
def splitPathAux : List Char → List Char → List (List Char)
  | [], acc => [acc.reverse]
  | '/' :: rest, acc => acc.reverse :: splitPathAux rest []
  | c :: rest, acc => splitPathAux rest (c :: acc)

/-- The non-empty `/`-separated components of a path, as character lists.
Models the `[x for x in p.split(sep) if x]` step of `posixpath.relpath`. -/
def pathComponents (p : String) : List (List Char) :=
  (splitPathAux p.data []).filter (fun c => c ≠ [])

/-- Does the string start with `'/'`? (`b.startswith(sep)` in `posixpath.join`.) -/
def strHeadIsSlash (b : String) : Bool :=
  match b.data with
  | '/' :: _ => true
  | _ => false

/-- Does the string end with `'/'`? (`path.endswith(sep)` in `posixpath.join`.) -/
def strLastIsSlash (a : String) : Bool :=
  a.data.getLast? == some '/'

/-- Model of the two-argument `os.path.join(a, b)` on POSIX:
if `b` is absolute it wins; otherwise insert a separator unless `a` is empty
or already ends in one. -/
def pjoin (a b : String) : String :=
  if strHeadIsSlash b then b
  else if a == "" || strLastIsSlash a then a ++ b
  else a ++ "/" ++ b

/-- Drop the common leading components of two component lists; returns the two
remainders.  Models the common-prefix step of `posixpath.relpath`. -/
def dropCommon : List (List Char) → List (List Char) → List (List Char) × List (List Char)
  | a :: as, b :: bs => if a = b then dropCommon as bs else (a :: as, b :: bs)
  | as, bs => (as, bs)

/-- Model of `os.path.relpath(p, start)` for relative POSIX paths with no
`.`/`..` components (both paths are then resolved against the same working
directory, so the computation reduces to the component algorithm below):
drop the common leading components, emit one `..` per remaining `start`
component followed by the remaining `p` components, and return `.` when
nothing is left. -/
def relpath (p start : String) : String :=
  let rem := dropCommon (pathComponents p) (pathComponents start)
  let rel := (rem.2.map (fun _ => ['.', '.'])) ++ rem.1
  if rel = [] then "." else String.mk (List.intercalate ['/'] rel)

/-! ## `FileInfo` and canonical names -/

/-- `FileInfo = namedtuple('FileInfo', ['path', 'file', 'info'])` from
`unlike.py`.  The `info` field holds the `os.stat` result; no part of the
program inspects it, so it is modelled as an opaque numeric token. -/
structure FileInfo where
  path : String
  file : String
  info : Nat
deriving DecidableEq, Repr

/-- `FolderMerger._get_canonical_name(fi, base)`:
`os.path.relpath(os.path.join(fi.path, fi.file), start=base)`. -/
def get_canonical_name (fi : FileInfo) (base : String) : String :=
  relpath (pjoin fi.path fi.file) base

/-! ## Regular-expression model (`re.search`)

`filter_out_ignored_files` matches each ignore pattern with `re.search`.
The model below covers the regex constructs the specification exercises:
literal characters, backslash-escaped literals (`\.`), the wildcard `.`,
and the anchors `^` and `$`.  Deviations from Python `re`, irrelevant for
the paths at hand: `$` matches only at the very end of the string (Python
also matches just before a trailing newline), and quantifiers, classes and
groups are not interpreted. -/

/-- One token of a parsed ignore pattern. -/
inductive RTok where
  | lit (c : Char)
  | dot
  | bol
  | eol
deriving DecidableEq, Repr

/-- Parse a pattern string into tokens: `\c` is the literal `c`, `.` the
wildcard, `^`/`$` the anchors, anything else a literal. -/
def parsePat : List Char → List RTok
  | [] => []
  | '\\' :: c :: rest => RTok.lit c :: parsePat rest
  | '\\' :: [] => []
  | '^' :: rest => RTok.bol :: parsePat rest
  | '$' :: rest => RTok.eol :: parsePat rest
  | '.' :: rest => RTok.dot :: parsePat rest
  | c :: rest => RTok.lit c :: parsePat rest

/-- Match a token list against the front of a character list.  The flag
records whether the current position is the start of the subject string
(for `^`). -/
def matchToks : List RTok → List Char → Bool → Bool
  | [], _, _ => true
  | RTok.bol :: ts, cs, atStart => atStart && matchToks ts cs atStart
  | RTok.eol :: ts, [], atStart => matchToks ts [] atStart
  | RTok.eol :: _, _ :: _, _ => false
  | RTok.lit c :: ts, x :: xs, _ => (c == x) && matchToks ts xs false
  | RTok.dot :: ts, x :: xs, _ => (x != '\n') && matchToks ts xs false
  | RTok.lit _ :: _, [], _ => false
  | RTok.dot :: _, [], _ => false

/-- Try to match the token list at each start offset of the subject, the way
`re.search` scans for the leftmost match. -/
def matchFrom (ts : List RTok) : List Char → Bool → Bool
  | [], atStart => matchToks ts [] atStart
  | c :: rest, atStart => matchToks ts (c :: rest) atStart || matchFrom ts rest false

/-- Model of `re.search(pat, s) is not None`. -/
def reSearch (pat s : String) : Bool :=
  matchFrom (parsePat pat.data) s.data true

/-- `l` is a contiguous suffix of `s` (some tail of `s` equals `l`).
Used to state "the full path ends in `.tmp`". -/
def hasSuffix (suf : List Char) : List Char → Bool
  | [] => [] == suf
  | c :: rest => ((c :: rest) == suf) || hasSuffix suf rest

/-! ## Filter construction (`filter_out_ignored_files`) -/

/-- The closure `_filter_out(path, filename)` built by
`filter_out_ignored_files`: join the path and filename and exclude the file
(return `false`) as soon as any pattern matches it. -/
def filterOutFn (ignore_list : List String) (path filename : String) : Bool :=
  let full := pjoin path filename
  ignore_list.all (fun ignore_pat => !(reSearch ignore_pat full))

/-- `filter_out_ignored_files(ignore_list)`: returns the `_filter_out`
closure when the list is non-empty and `None` otherwise. -/
def filter_out_ignored_files (ignore_list : List String) :
    Option (String → String → Bool) :=
  if ignore_list.length > 0 then some (filterOutFn ignore_list) else none

/-! ## Filesystem and `FolderCrawler` -/

/-- A directory: its files and its named subdirectories. -/
inductive DirTree where
  | node (files : List String) (subdirs : List (String × DirTree))

mutual
/-- `os.walk` on an existing directory: yield `(path, files)` for the
directory itself, then recurse into the subdirectories (top-down order, the
`os.walk` default; the `dirs` component is never used by the program and is
omitted). -/
def osWalk (path : String) : DirTree → List (String × List String)
  | DirTree.node files subdirs => (path, files) :: osWalkChildren path subdirs

/-- Walk each subdirectory in turn. -/
def osWalkChildren (path : String) : List (String × DirTree) → List (String × List String)
  | [] => []
  | (d, t) :: rest => osWalk (pjoin path d) t ++ osWalkChildren path rest
end

/-- A model filesystem: the directory paths that exist, each with its tree.
A root that is absent (nonexistent, or not a directory) has no entry. -/
def resolveRoot (fs : List (String × DirTree)) (root : String) : Option DirTree :=
  (fs.find? (fun e => e.1 == root)).map Prod.snd

/-- `os.walk(root)` including its behaviour on a bad root: with the default
`onerror=None`, a root that does not exist or is not a directory produces no
entries at all — the scandir error is swallowed and the walk is empty. -/
def osWalkTop (fs : List (String × DirTree)) (root : String) : List (String × List String) :=
  match resolveRoot fs root with
  | some t => osWalk root t
  | none => []

/-- The state of a `FolderCrawler`: the root it was constructed with and its
filter chain.  (`file_map`, set by `make_map`, is not consumed by `merge`,
which re-iterates `stat_files`, so it is omitted.) -/
structure FolderCrawler where
  root : String
  filters : List (String → String → Bool)

/-- `FolderCrawler.add_filter(method)`: append `method` to the chain when it
is callable, leave the chain unchanged otherwise, and return `self` either
way.  The only non-callable the program ever passes is the `None` returned
by `filter_out_ignored_files` for an empty ignore list, so the argument is
modelled as an `Option`: `some f` is a callable, `none` is `None`. -/
def FolderCrawler.add_filter (c : FolderCrawler) (method : Option (String → String → Bool)) :
    FolderCrawler :=
  match method with
  | some f => { c with filters := c.filters ++ [f] }
  | none => c

/-- `FolderCrawler._filter(path, filename)`: every predicate of the chain
must accept `(relpath(path, root), filename)`. -/
def FolderCrawler.runFilterChain (c : FolderCrawler) (path filename : String) : Bool :=
  c.filters.all (fun f => f (relpath path c.root) filename)

/-- `FolderCrawler.iter_files()`: walk the root and yield `(path, fname)`
for every file that passes the filter chain. -/
def FolderCrawler.iter_files (c : FolderCrawler) (fs : List (String × DirTree)) :
    List (String × String) :=
  (osWalkTop fs c.root).flatMap
    (fun pf => (pf.2.filter (fun fname => c.runFilterChain pf.1 fname)).map
      (fun fname => (pf.1, fname)))

/-- `FolderCrawler.stat_files()`: attach the `os.stat` result to each yielded
file.  The filesystem's stat answers are supplied as a function. -/
def FolderCrawler.stat_files (c : FolderCrawler) (fs : List (String × DirTree))
    (stat : String → Nat) : List FileInfo :=
  (c.iter_files fs).map (fun pf => FileInfo.mk pf.1 pf.2 (stat (pjoin pf.1 pf.2)))

/-- Enumerate a root with a fresh, filterless crawler (what the right tree
effectively gets in `main`, and what `merge` consumes per crawler). -/
def crawlFiles (fs : List (String × DirTree)) (stat : String → Nat) (root : String) :
    List FileInfo :=
  (FolderCrawler.mk root []).stat_files fs stat

/-! ## `FolderMerger.merge`: building `file_map` and classifying -/

/-- One value of `file_map`: the `[left, right]` slot pair, `None` when the
corresponding tree has no file under that canonical name. -/
abbrev MergeSlot := Option FileInfo × Option FileInfo

/-- The `file_map` itself: an insertion-ordered association list from
canonical name to slot pair, the way a Python `dict` iterates. -/
abbrev FileMap := List (String × MergeSlot)

/-- The keys of a `FileMap`, in insertion order. -/
def mapKeys (m : FileMap) : List String := m.map Prod.fst

/-- `file_map[k] = f(file_map[k])` on a `defaultdict(lambda: [None, None])`:
update the slot in place when the key exists, otherwise append a fresh entry
(Python dicts keep insertion order; new keys go to the end). -/
def updMap (m : FileMap) (k : String) (f : MergeSlot → MergeSlot) : FileMap :=
  match m with
  | [] => [(k, f (none, none))]
  | e :: rest => if e.1 = k then (e.1, f e.2) :: rest else e :: updMap rest k f

/-- `file_map[canonical_name][0] = fi` for a left-tree record. -/
def addLeft (lroot : String) (m : FileMap) (fi : FileInfo) : FileMap :=
  updMap m (get_canonical_name fi lroot) (fun p => (some fi, p.2))

/-- `file_map[canonical_name][1] = fi` for a right-tree record. -/
def addRight (rroot : String) (m : FileMap) (fi : FileInfo) : FileMap :=
  updMap m (get_canonical_name fi rroot) (fun p => (p.1, some fi))

/-- The `file_map` built by the first loop of `merge`: all left-tree records
in iteration order, then all right-tree records. -/
def buildFileMap (lroot : String) (lfis : List FileInfo) (rroot : String)
    (rfis : List FileInfo) : FileMap :=
  rfis.foldl (addRight rroot) (lfis.foldl (addLeft lroot) [])

/-- The classification loop of `merge` over `file_map.values()`:
a slot with no left record goes to `right_only`, one with no right record to
`left_only`, and one with both contributes `os.path.join(t[1].path,
t[1].file)` — the right record's full path — to `both`.  A `(none, none)`
slot never occurs in a map built by `buildFileMap` (each entry is created by
assigning one of its two sides); the catch-all case is dead code. -/
def classifySlots : List MergeSlot → List FileInfo × List FileInfo × List String
  | [] => ([], [], [])
  | p :: rest =>
    let r := classifySlots rest
    match p with
    | (none, some fi) => (r.1, fi :: r.2.1, r.2.2)
    | (some fi, none) => (fi :: r.1, r.2.1, r.2.2)
    | (some _, some fi2) => (r.1, r.2.1, pjoin fi2.path fi2.file :: r.2.2)
    | (none, none) => r

/-- The three buckets computed by `FolderMerger.merge` from the two crawler
enumerations (each `fis` list is the sequence the crawler's iterator yields;
`merge` is parametric in it). -/
def merge_buckets (lroot : String) (lfis : List FileInfo) (rroot : String)
    (rfis : List FileInfo) : List FileInfo × List FileInfo × List String :=
  classifySlots ((buildFileMap lroot lfis rroot rfis).map Prod.snd)

/-- The `left_only` bucket of `merge`. -/
def left_only (lroot : String) (lfis : List FileInfo) (rroot : String)
    (rfis : List FileInfo) : List FileInfo :=
  (merge_buckets lroot lfis rroot rfis).1

/-- The `right_only` bucket of `merge`. -/
def right_only (lroot : String) (lfis : List FileInfo) (rroot : String)
    (rfis : List FileInfo) : List FileInfo :=
  (merge_buckets lroot lfis rroot rfis).2.1

/-- The `both` bucket of `merge` (a list of full-path strings of the right
tree's records). -/
def both_bucket (lroot : String) (lfis : List FileInfo) (rroot : String)
    (rfis : List FileInfo) : List String :=
  (merge_buckets lroot lfis rroot rfis).2.2

/-- `Total (by len)`: `len(list(file_map.keys()))`. -/
def total_by_len (lroot : String) (lfis : List FileInfo) (rroot : String)
    (rfis : List FileInfo) : Nat :=
  (mapKeys (buildFileMap lroot lfis rroot rfis)).length

/-- `Total (by sum)`: `len(left_only) + len(right_only) + len(both)`. -/
def total_by_sum (lroot : String) (lfis : List FileInfo) (rroot : String)
    (rfis : List FileInfo) : Nat :=
  (left_only lroot lfis rroot rfis).length + (right_only lroot lfis rroot rfis).length
    + (both_bucket lroot lfis rroot rfis).length

/-- The canonical-path set of one tree's enumeration: every record's
canonical name relative to that tree's root. -/
def treeKeyFinset (root : String) (fis : List FileInfo) : Finset String :=
  (fis.map (fun fi => get_canonical_name fi root)).toFinset

/-- Canonical-path set of the `left_only` bucket (records relativized
against the left root, exactly as their map keys were computed). -/
def leftOnlyKeyFinset (lroot : String) (lfis : List FileInfo) (rroot : String)
    (rfis : List FileInfo) : Finset String :=
  ((left_only lroot lfis rroot rfis).map (fun fi => get_canonical_name fi lroot)).toFinset

/-- Canonical-path set of the `right_only` bucket (relativized against the
right root). -/
def rightOnlyKeyFinset (lroot : String) (lfis : List FileInfo) (rroot : String)
    (rfis : List FileInfo) : Finset String :=
  ((right_only lroot lfis rroot rfis).map (fun fi => get_canonical_name fi rroot)).toFinset

/-- Canonical-path set of the `both` bucket: its entries are right-tree full
paths, so relativizing them against the right root recovers the canonical
names. -/
def bothKeyFinset (lroot : String) (lfis : List FileInfo) (rroot : String)
    (rfis : List FileInfo) : Finset String :=
  ((both_bucket lroot lfis rroot rfis).map (fun s => relpath s rroot)).toFinset

/-! ## Rendering of the `both` bucket (`show_both`)

`merge` renders each enabled bucket with
`sorted(bucket, key=lambda li: os.path.join(li.path, li.file).lower())`.
For `left_only`/`right_only` the elements are `FileInfo` records and the key
is the lower-cased full path.  For `both`, however, the elements are plain
strings, and `li.path` on a `str` raises `AttributeError`. -/

/-- The sort key `lambda li: os.path.join(li.path, li.file).lower()` applied
to an element of `both` (a `String`): attribute access `li.path` on a `str`
raises. -/
def bothDisplayKey (li : String) : Except String String :=
  match li with
  | _ => Except.error "AttributeError: str object has no attribute path"

/-- `sorted(both, key=...)` in the `show_both` branch: `sorted` evaluates the
key on every element, so the first element already raises; only an empty
`both` survives (Python never calls the key for an empty list). -/
def sortedBothForDisplay (both : List String) : Except String (List String) :=
  match both with
  | [] => Except.ok []
  | li :: _ =>
    match bothDisplayKey li with
    | Except.error e => Except.error e
    | Except.ok _ => Except.ok both

/-! ## The CLI wiring of `main` -/

/-- The crawler construction in `main`, with its filter attachments in
source order: `fs_left.add_filter(ignore_fn)` after constructing `fs_left`,
and then — instead of `fs_right.add_filter` — a second
`fs_left.add_filter(ignore_fn)` after constructing `fs_right`.  Returns
`(fs_left, fs_right)` as they stand when `merge` runs. -/
def mainCrawlers (leftRoot rightRoot : String)
    (ignore_fn : Option (String → String → Bool)) : FolderCrawler × FolderCrawler :=
  let fs_left := FolderCrawler.mk leftRoot []
  let fs_left := fs_left.add_filter ignore_fn
  let fs_right := FolderCrawler.mk rightRoot []
  let fs_left := fs_left.add_filter ignore_fn
  (fs_left, fs_right)

/-! ## Concrete scenario from the specification -/

/-- A stat function for the concrete scenarios; the program never inspects
stat results. -/
def demoStat : String → Nat := fun _ => 0

/-- Left tree of the spec scenario: `a.txt`, `shared/b.txt`. -/
def demoLeftTree : DirTree :=
  DirTree.node ["a.txt"] [("shared", DirTree.node ["b.txt"] [])]

/-- Right tree of the spec scenario: `c.txt`, `shared/b.txt`. -/
def demoRightTree : DirTree :=
  DirTree.node ["c.txt"] [("shared", DirTree.node ["b.txt"] [])]

/-- The scenario filesystem: the two roots `left` and `right` exist. -/
def demoFS : List (String × DirTree) :=
  [("left", demoLeftTree), ("right", demoRightTree)]

/-- The left enumeration of the scenario. -/
def demoLeftFis : List FileInfo := crawlFiles demoFS demoStat "left"

/-- The right enumeration of the scenario. -/
def demoRightFis : List FileInfo := crawlFiles demoFS demoStat "right"

/-! ## Helper lemmas: the `file_map` association list -/

theorem mapKeys_updMap (m : FileMap) (k : String) (f : MergeSlot → MergeSlot) :
    mapKeys (updMap m k f) =
      if k ∈ mapKeys m then mapKeys m else mapKeys m ++ [k] := by
  induction m with
  | nil => simp [updMap, mapKeys]
  | cons e rest ih =>
    by_cases h : e.1 = k
    · simp [updMap, mapKeys, h]
    · have hne : k ≠ e.1 := fun hc => h hc.symm
      simp only [updMap, if_neg h, mapKeys, List.map_cons] at ih ⊢
      rw [ih]
      by_cases hk : k ∈ List.map Prod.fst rest
      · simp [hk, hne]
      · simp [hk, hne]

theorem mapKeys_updMap_nodup (m : FileMap) (k : String) (f : MergeSlot → MergeSlot)
    (h : (mapKeys m).Nodup) : (mapKeys (updMap m k f)).Nodup := by
  rw [mapKeys_updMap]
  by_cases hk : k ∈ mapKeys m
  · simpa [hk] using h
  · simp [hk, List.nodup_append, h]

theorem mem_updMap (m : FileMap) (k : String) (f : MergeSlot → MergeSlot)
    (hnd : (mapKeys m).Nodup) (e : String × MergeSlot) (he : e ∈ updMap m k f) :
    (e ∈ m ∧ e.1 ≠ k) ∨
      (e.1 = k ∧ ((k ∉ mapKeys m ∧ e.2 = f (none, none)) ∨
        ∃ q, (k, q) ∈ m ∧ e.2 = f q)) := by
  induction m with
  | nil =>
    simp only [updMap, List.mem_singleton] at he
    subst he
    exact Or.inr ⟨rfl, Or.inl ⟨by simp [mapKeys], rfl⟩⟩
  | cons hd rest ih =>
    have hndr : (mapKeys rest).Nodup := (List.nodup_cons.mp hnd).2
    have hhd : hd.1 ∉ mapKeys rest := (List.nodup_cons.mp hnd).1
    by_cases h : hd.1 = k
    · simp only [updMap, h, if_pos rfl] at he
      rcases List.mem_cons.mp he with he1 | he2
      · subst he1
        refine Or.inr ⟨rfl, Or.inr ⟨hd.2, ?_, rfl⟩⟩
        have : (k, hd.2) = hd := by
          cases hd; simp_all
        rw [this]; exact List.mem_cons_self _ _
      · refine Or.inl ⟨List.mem_cons_of_mem _ he2, ?_⟩
        intro hek
        apply hhd
        rw [h, ← hek]
        exact List.mem_map_of_mem Prod.fst he2
    · simp only [updMap, if_neg h] at he
      rcases List.mem_cons.mp he with he1 | he2
      · subst he1; exact Or.inl ⟨List.mem_cons_self _ _, fun hc => h hc⟩
      · rcases ih hndr he2 with ⟨hm, hne⟩ | ⟨hek, hsub⟩
        · exact Or.inl ⟨List.mem_cons_of_mem _ hm, hne⟩
        · refine Or.inr ⟨hek, ?_⟩
          rcases hsub with ⟨hknot, hfe⟩ | ⟨q, hq, hfe⟩
          · refine Or.inl ⟨?_, hfe⟩
            simp only [mapKeys, List.map_cons, List.mem_cons]
            rintro (hc | hc)
            · exact h hc.symm
            · exact hknot hc
          · exact Or.inr ⟨q, List.mem_cons_of_mem _ hq, hfe⟩

/-! ## The invariant maintained while building `file_map` -/

/-- Canonical-name image of a (partial) enumeration, as a list. -/
def canonImg (root : String) (fis : List FileInfo) : List String :=
  fis.map (fun fi => get_canonical_name fi root)

/-- Invariant of the `file_map` after the records `S` of the left tree and
`T` of the right tree have been inserted: the keys are distinct and are
exactly the canonical names seen so far, each slot side is populated exactly
for the keys its tree has produced, and every stored record canonicalizes to
its own key. -/
def mergeInv (lroot rroot : String) (S T : List FileInfo) (m : FileMap) : Prop :=
  (mapKeys m).Nodup ∧
  (∀ k, k ∈ mapKeys m ↔ (k ∈ canonImg lroot S ∨ k ∈ canonImg rroot T)) ∧
  (∀ e ∈ m,
    (∀ fi, e.2.1 = some fi → get_canonical_name fi lroot = e.1 ∧ fi ∈ S) ∧
    (e.2.1 = none → e.1 ∉ canonImg lroot S) ∧
    (∀ fi, e.2.2 = some fi → get_canonical_name fi rroot = e.1 ∧ fi ∈ T) ∧
    (e.2.2 = none → e.1 ∉ canonImg rroot T))

theorem mergeInv_nil (lroot rroot : String) : mergeInv lroot rroot [] [] [] := by
  refine ⟨List.nodup_nil, ?_, ?_⟩
  · intro k; simp [mapKeys, canonImg]
  · intro e he; simp at he

theorem mergeInv_addLeft (lroot rroot : String) (S T : List FileInfo) (m : FileMap)
    (fi0 : FileInfo) (h : mergeInv lroot rroot S T m) :
    mergeInv lroot rroot (S ++ [fi0]) T (addLeft lroot m fi0) := by
  obtain ⟨hnd, hkeys, hent⟩ := h
  have himg : canonImg lroot (S ++ [fi0])
      = canonImg lroot S ++ [get_canonical_name fi0 lroot] := by
    simp [canonImg]
  refine ⟨?_, ?_, ?_⟩
  · exact mapKeys_updMap_nodup _ _ _ hnd
  · intro k
    rw [addLeft, mapKeys_updMap, himg]
    by_cases hmem : get_canonical_name fi0 lroot ∈ mapKeys m
    · rw [if_pos hmem]
      have hk0 := (hkeys (get_canonical_name fi0 lroot)).mp hmem
      constructor
      · intro h1
        rcases (hkeys k).mp h1 with hL | hR
        · exact Or.inl (by simp [hL])
        · exact Or.inr hR
      · intro h1
        apply (hkeys k).mpr
        rcases h1 with hL | hR
        · simp only [List.mem_append, List.mem_singleton] at hL
          rcases hL with hL | hL
          · exact Or.inl hL
          · subst hL; exact hk0
        · exact Or.inr hR
    · rw [if_neg hmem]
      constructor
      · intro h1
        simp only [List.mem_append, List.mem_singleton] at h1 ⊢
        rcases h1 with h1 | h1
        · rcases (hkeys k).mp h1 with hL | hR
          · exact Or.inl (Or.inl hL)
          · exact Or.inr hR
        · exact Or.inl (Or.inr h1)
      · intro h1
        simp only [List.mem_append, List.mem_singleton] at h1 ⊢
        rcases h1 with (hL | hL) | hR
        · exact Or.inl ((hkeys k).mpr (Or.inl hL))
        · exact Or.inr hL
        · exact Or.inl ((hkeys k).mpr (Or.inr hR))
  · intro e he
    rcases mem_updMap m _ _ hnd e he with ⟨hem, hne⟩ | ⟨hek, hsub⟩
    · obtain ⟨h1, h2, h3, h4⟩ := hent e hem
      refine ⟨?_, ?_, h3, h4⟩
      · intro fi hfi
        obtain ⟨hc, hmem⟩ := h1 fi hfi
        exact ⟨hc, List.mem_append_left _ hmem⟩
      · intro hn
        rw [himg]
        simp only [List.mem_append, List.mem_singleton]
        rintro (hc | hc)
        · exact h2 hn hc
        · exact hne (by rw [hc])
    · rcases hsub with ⟨hknot, hfe⟩ | ⟨q, hq, hfe⟩
      · refine ⟨?_, ?_, ?_, ?_⟩
        · intro fi hfi
          rw [hfe] at hfi
          simp only at hfi
          cases hfi
          exact ⟨hek.symm, List.mem_append_right _ (List.mem_singleton_self _)⟩
        · intro hn; rw [hfe] at hn; simp at hn
        · intro fi hfi; rw [hfe] at hfi; simp at hfi
        · intro _
          rw [hek]
          intro hc
          exact hknot ((hkeys _).mpr (Or.inr hc))
      · obtain ⟨h1, h2, h3, h4⟩ := hent (get_canonical_name fi0 lroot, q) hq
        refine ⟨?_, ?_, ?_, ?_⟩
        · intro fi hfi
          rw [hfe] at hfi
          simp only at hfi
          cases hfi
          exact ⟨hek.symm, List.mem_append_right _ (List.mem_singleton_self _)⟩
        · intro hn; rw [hfe] at hn; simp at hn
        · intro fi hfi
          rw [hfe] at hfi
          simp only at hfi
          obtain ⟨hc, hmem⟩ := h3 fi hfi
          exact ⟨by rw [hc, hek], hmem⟩
        · intro hn
          rw [hfe] at hn
          simp only at hn
          rw [hek]
          exact h4 hn

theorem mergeInv_addRight (lroot rroot : String) (S T : List FileInfo) (m : FileMap)
    (fi0 : FileInfo) (h : mergeInv lroot rroot S T m) :
    mergeInv lroot rroot S (T ++ [fi0]) (addRight rroot m fi0) := by
  obtain ⟨hnd, hkeys, hent⟩ := h
  have himg : canonImg rroot (T ++ [fi0])
      = canonImg rroot T ++ [get_canonical_name fi0 rroot] := by
    simp [canonImg]
  refine ⟨?_, ?_, ?_⟩
  · exact mapKeys_updMap_nodup _ _ _ hnd
  · intro k
    rw [addRight, mapKeys_updMap, himg]
    by_cases hmem : get_canonical_name fi0 rroot ∈ mapKeys m
    · rw [if_pos hmem]
      have hk0 := (hkeys (get_canonical_name fi0 rroot)).mp hmem
      constructor
      · intro h1
        rcases (hkeys k).mp h1 with hL | hR
        · exact Or.inl hL
        · exact Or.inr (by simp [hR])
      · intro h1
        apply (hkeys k).mpr
        rcases h1 with hL | hR
        · exact Or.inl hL
        · simp only [List.mem_append, List.mem_singleton] at hR
          rcases hR with hR | hR
          · exact Or.inr hR
          · subst hR; exact hk0
    · rw [if_neg hmem]
      constructor
      · intro h1
        simp only [List.mem_append, List.mem_singleton] at h1 ⊢
        rcases h1 with h1 | h1
        · rcases (hkeys k).mp h1 with hL | hR
          · exact Or.inl hL
          · exact Or.inr (Or.inl hR)
        · exact Or.inr (Or.inr h1)
      · intro h1
        simp only [List.mem_append, List.mem_singleton] at h1 ⊢
        rcases h1 with hL | (hR | hR)
        · exact Or.inl ((hkeys k).mpr (Or.inl hL))
        · exact Or.inl ((hkeys k).mpr (Or.inr hR))
        · exact Or.inr hR
  · intro e he
    rcases mem_updMap m _ _ hnd e he with ⟨hem, hne⟩ | ⟨hek, hsub⟩
    · obtain ⟨h1, h2, h3, h4⟩ := hent e hem
      refine ⟨h1, h2, ?_, ?_⟩
      · intro fi hfi
        obtain ⟨hc, hmem⟩ := h3 fi hfi
        exact ⟨hc, List.mem_append_left _ hmem⟩
      · intro hn
        rw [himg]
        simp only [List.mem_append, List.mem_singleton]
        rintro (hc | hc)
        · exact h4 hn hc
        · exact hne (by rw [hc])
    · rcases hsub with ⟨hknot, hfe⟩ | ⟨q, hq, hfe⟩
      · refine ⟨?_, ?_, ?_, ?_⟩
        · intro fi hfi; rw [hfe] at hfi; simp at hfi
        · intro _
          rw [hek]
          intro hc
          exact hknot ((hkeys _).mpr (Or.inl hc))
        · intro fi hfi
          rw [hfe] at hfi
          simp only at hfi
          cases hfi
          exact ⟨hek.symm, List.mem_append_right _ (List.mem_singleton_self _)⟩
        · intro hn; rw [hfe] at hn; simp at hn
      · obtain ⟨h1, h2, h3, h4⟩ := hent (get_canonical_name fi0 rroot, q) hq
        refine ⟨?_, ?_, ?_, ?_⟩
        · intro fi hfi
          rw [hfe] at hfi
          simp only at hfi
          obtain ⟨hc, hmem⟩ := h1 fi hfi
          exact ⟨by rw [hc, hek], hmem⟩
        · intro hn
          rw [hfe] at hn
          simp only at hn
          rw [hek]
          exact h2 hn
        · intro fi hfi
          rw [hfe] at hfi
          simp only at hfi
          cases hfi
          exact ⟨hek.symm, List.mem_append_right _ (List.mem_singleton_self _)⟩
        · intro hn; rw [hfe] at hn; simp at hn

theorem mergeInv_foldLeft (lroot rroot : String) (T : List FileInfo) :
    ∀ (fis S : List FileInfo) (m : FileMap), mergeInv lroot rroot S T m →
      mergeInv lroot rroot (S ++ fis) T (fis.foldl (addLeft lroot) m) := by
  intro fis
  induction fis with
  | nil => intro S m h; simpa using h
  | cons fi fis ih =>
    intro S m h
    have h2 := ih (S ++ [fi]) (addLeft lroot m fi) (mergeInv_addLeft _ _ _ _ _ _ h)
    simpa [List.append_assoc] using h2

theorem mergeInv_foldRight (lroot rroot : String) (S : List FileInfo) :
    ∀ (fis T : List FileInfo) (m : FileMap), mergeInv lroot rroot S T m →
      mergeInv lroot rroot S (T ++ fis) (fis.foldl (addRight rroot) m) := by
  intro fis
  induction fis with
  | nil => intro T m h; simpa using h
  | cons fi fis ih =>
    intro T m h
    have h2 := ih (T ++ [fi]) (addRight rroot m fi) (mergeInv_addRight _ _ _ _ _ _ h)
    simpa [List.append_assoc] using h2

theorem buildFileMap_inv (lroot rroot : String) (lfis rfis : List FileInfo) :
    mergeInv lroot rroot lfis rfis (buildFileMap lroot lfis rroot rfis) := by
  have h1 := mergeInv_foldLeft lroot rroot [] lfis [] [] (mergeInv_nil lroot rroot)
  simp only [List.nil_append] at h1
  have h2 := mergeInv_foldRight lroot rroot lfis rfis [] _ h1
  simpa [buildFileMap] using h2

/-! ## Characterizing the classification loop -/

/-- Selector for the `left_only` branch of the classification. -/
def selLeft : MergeSlot → Option FileInfo
  | (some fi, none) => some fi
  | _ => none

/-- Selector for the `right_only` branch of the classification. -/
def selRight : MergeSlot → Option FileInfo
  | (none, some fi) => some fi
  | _ => none

/-- Selector for the `both` branch of the classification. -/
def selBoth : MergeSlot → Option String
  | (some _, some fi2) => some (pjoin fi2.path fi2.file)
  | _ => none

theorem classifySlots_eq (ps : List MergeSlot) :
    classifySlots ps = (ps.filterMap selLeft, ps.filterMap selRight, ps.filterMap selBoth) := by
  induction ps with
  | nil => rfl
  | cons p rest ih =>
    rcases p with ⟨_ | fi1, _ | fi2⟩ <;>
      simp [classifySlots, selLeft, selRight, selBoth, ih, List.filterMap_cons]

theorem selLeft_eq_some (p : MergeSlot) (fi : FileInfo) :
    selLeft p = some fi ↔ p = (some fi, none) := by
  rcases p with ⟨_ | a, _ | b⟩ <;> simp [selLeft]

theorem selRight_eq_some (p : MergeSlot) (fi : FileInfo) :
    selRight p = some fi ↔ p = (none, some fi) := by
  rcases p with ⟨_ | a, _ | b⟩ <;> simp [selRight]

theorem selBoth_eq_some (p : MergeSlot) (s : String) :
    selBoth p = some s ↔
      ∃ fi1 fi2, p = (some fi1, some fi2) ∧ s = pjoin fi2.path fi2.file := by
  rcases p with ⟨_ | a, _ | b⟩ <;> simp [selBoth] <;> aesop

theorem left_only_eq (lroot : String) (lfis : List FileInfo) (rroot : String)
    (rfis : List FileInfo) :
    left_only lroot lfis rroot rfis
      = (buildFileMap lroot lfis rroot rfis).filterMap (fun e => selLeft e.2) := by
  rw [left_only, merge_buckets, classifySlots_eq]
  rw [List.filterMap_map]
  rfl

theorem right_only_eq (lroot : String) (lfis : List FileInfo) (rroot : String)
    (rfis : List FileInfo) :
    right_only lroot lfis rroot rfis
      = (buildFileMap lroot lfis rroot rfis).filterMap (fun e => selRight e.2) := by
  rw [right_only, merge_buckets, classifySlots_eq]
  simp only [List.filterMap_map]
  rfl

theorem both_bucket_eq (lroot : String) (lfis : List FileInfo) (rroot : String)
    (rfis : List FileInfo) :
    both_bucket lroot lfis rroot rfis
      = (buildFileMap lroot lfis rroot rfis).filterMap (fun e => selBoth e.2) := by
  rw [both_bucket, merge_buckets, classifySlots_eq]
  simp only [List.filterMap_map]
  rfl

theorem mem_left_only (lroot : String) (lfis : List FileInfo) (rroot : String)
    (rfis : List FileInfo) (fi : FileInfo) :
    fi ∈ left_only lroot lfis rroot rfis ↔
      ∃ e ∈ buildFileMap lroot lfis rroot rfis, e.2 = (some fi, none) := by
  rw [left_only_eq]
  simp [List.mem_filterMap, selLeft_eq_some]

theorem mem_right_only (lroot : String) (lfis : List FileInfo) (rroot : String)
    (rfis : List FileInfo) (fi : FileInfo) :
    fi ∈ right_only lroot lfis rroot rfis ↔
      ∃ e ∈ buildFileMap lroot lfis rroot rfis, e.2 = (none, some fi) := by
  rw [right_only_eq]
  simp [List.mem_filterMap, selRight_eq_some]

theorem mem_both_bucket (lroot : String) (lfis : List FileInfo) (rroot : String)
    (rfis : List FileInfo) (s : String) :
    s ∈ both_bucket lroot lfis rroot rfis ↔
      ∃ e ∈ buildFileMap lroot lfis rroot rfis, ∃ fi1 fi2,
        e.2 = (some fi1, some fi2) ∧ s = pjoin fi2.path fi2.file := by
  rw [both_bucket_eq]
  simp [List.mem_filterMap, selBoth_eq_some]

/-! ## Canonical-path characterization of the three buckets -/

theorem mem_treeKeyFinset (root : String) (fis : List FileInfo) (k : String) :
    k ∈ treeKeyFinset root fis ↔ k ∈ canonImg root fis := by
  simp [treeKeyFinset, canonImg, List.mem_toFinset]

theorem leftOnlyKeys_mem (lroot : String) (lfis : List FileInfo) (rroot : String)
    (rfis : List FileInfo) (k : String) :
    k ∈ (left_only lroot lfis rroot rfis).map (fun fi => get_canonical_name fi lroot) ↔
      (k ∈ canonImg lroot lfis ∧ k ∉ canonImg rroot rfis) := by
  obtain ⟨hnd, hkeys, hent⟩ := buildFileMap_inv lroot rroot lfis rfis
  constructor
  · rw [List.mem_map]
    rintro ⟨fi, hfi, rfl⟩
    obtain ⟨e, he, he2⟩ := (mem_left_only lroot lfis rroot rfis fi).mp hfi
    obtain ⟨h1, h2, h3, h4⟩ := hent e he
    obtain ⟨hc, hmem⟩ := h1 fi (by rw [he2])
    refine ⟨List.mem_map_of_mem _ hmem, ?_⟩
    rw [hc]
    exact h4 (by rw [he2])
  · rintro ⟨hL, hR⟩
    have hk : k ∈ mapKeys (buildFileMap lroot lfis rroot rfis) :=
      (hkeys k).mpr (Or.inl hL)
    obtain ⟨e, he, hek⟩ : ∃ e ∈ buildFileMap lroot lfis rroot rfis, e.1 = k := by
      simpa [mapKeys, List.mem_map] using hk
    obtain ⟨h1, h2, h3, h4⟩ := hent e he
    cases hfst : e.2.1 with
    | none => exact absurd (hek ▸ hL) (h2 hfst)
    | some fi =>
      cases hsnd : e.2.2 with
      | some fi2 =>
        obtain ⟨hc, hm⟩ := h3 fi2 hsnd
        have : k ∈ canonImg rroot rfis := by
          rw [← hek, ← hc]
          exact List.mem_map_of_mem _ hm
        exact absurd this hR
      | none =>
        have he2 : e.2 = (some fi, none) := by
          rw [Prod.ext_iff]; exact ⟨hfst, hsnd⟩
        refine List.mem_map.mpr ⟨fi, ?_, ?_⟩
        · exact (mem_left_only lroot lfis rroot rfis fi).mpr ⟨e, he, he2⟩
        · exact ((h1 fi hfst).1).trans hek

theorem rightOnlyKeys_mem (lroot : String) (lfis : List FileInfo) (rroot : String)
    (rfis : List FileInfo) (k : String) :
    k ∈ (right_only lroot lfis rroot rfis).map (fun fi => get_canonical_name fi rroot) ↔
      (k ∈ canonImg rroot rfis ∧ k ∉ canonImg lroot lfis) := by
  obtain ⟨hnd, hkeys, hent⟩ := buildFileMap_inv lroot rroot lfis rfis
  constructor
  · rw [List.mem_map]
    rintro ⟨fi, hfi, rfl⟩
    obtain ⟨e, he, he2⟩ := (mem_right_only lroot lfis rroot rfis fi).mp hfi
    obtain ⟨h1, h2, h3, h4⟩ := hent e he
    obtain ⟨hc, hmem⟩ := h3 fi (by rw [he2])
    refine ⟨List.mem_map_of_mem _ hmem, ?_⟩
    rw [hc]
    exact h2 (by rw [he2])
  · rintro ⟨hR, hL⟩
    have hk : k ∈ mapKeys (buildFileMap lroot lfis rroot rfis) :=
      (hkeys k).mpr (Or.inr hR)
    obtain ⟨e, he, hek⟩ : ∃ e ∈ buildFileMap lroot lfis rroot rfis, e.1 = k := by
      simpa [mapKeys, List.mem_map] using hk
    obtain ⟨h1, h2, h3, h4⟩ := hent e he
    cases hsnd : e.2.2 with
    | none => exact absurd (hek ▸ hR) (h4 hsnd)
    | some fi =>
      cases hfst : e.2.1 with
      | some fi1 =>
        obtain ⟨hc, hm⟩ := h1 fi1 hfst
        have : k ∈ canonImg lroot lfis := by
          rw [← hek, ← hc]
          exact List.mem_map_of_mem _ hm
        exact absurd this hL
      | none =>
        have he2 : e.2 = (none, some fi) := by
          rw [Prod.ext_iff]; exact ⟨hfst, hsnd⟩
        refine List.mem_map.mpr ⟨fi, ?_, ?_⟩
        · exact (mem_right_only lroot lfis rroot rfis fi).mpr ⟨e, he, he2⟩
        · exact ((h3 fi hsnd).1).trans hek

theorem bothKeys_mem (lroot : String) (lfis : List FileInfo) (rroot : String)
    (rfis : List FileInfo) (k : String) :
    k ∈ (both_bucket lroot lfis rroot rfis).map (fun s => relpath s rroot) ↔
      (k ∈ canonImg lroot lfis ∧ k ∈ canonImg rroot rfis) := by
  obtain ⟨hnd, hkeys, hent⟩ := buildFileMap_inv lroot rroot lfis rfis
  constructor
  · rw [List.mem_map]
    rintro ⟨s, hs, rfl⟩
    obtain ⟨e, he, fi1, fi2, he2, hsval⟩ :=
      (mem_both_bucket lroot lfis rroot rfis s).mp hs
    obtain ⟨h1, h2, h3, h4⟩ := hent e he
    obtain ⟨hc1, hm1⟩ := h1 fi1 (by rw [he2])
    obtain ⟨hc2, hm2⟩ := h3 fi2 (by rw [he2])
    have hrel : relpath s rroot = get_canonical_name fi2 rroot := by
      rw [hsval]; rfl
    rw [hrel, hc2, ← hc1]
    constructor
    · exact List.mem_map_of_mem _ hm1
    · rw [hc1, ← hc2]
      exact List.mem_map_of_mem _ hm2
  · rintro ⟨hL, hR⟩
    have hk : k ∈ mapKeys (buildFileMap lroot lfis rroot rfis) :=
      (hkeys k).mpr (Or.inl hL)
    obtain ⟨e, he, hek⟩ : ∃ e ∈ buildFileMap lroot lfis rroot rfis, e.1 = k := by
      simpa [mapKeys, List.mem_map] using hk
    obtain ⟨h1, h2, h3, h4⟩ := hent e he
    cases hfst : e.2.1 with
    | none => exact absurd (hek ▸ hL) (h2 hfst)
    | some fi1 =>
      cases hsnd : e.2.2 with
      | none => exact absurd (hek ▸ hR) (h4 hsnd)
      | some fi2 =>
        have he2 : e.2 = (some fi1, some fi2) := by
          rw [Prod.ext_iff]; exact ⟨hfst, hsnd⟩
        refine List.mem_map.mpr ⟨pjoin fi2.path fi2.file, ?_, ?_⟩
        · exact (mem_both_bucket lroot lfis rroot rfis _).mpr ⟨e, he, fi1, fi2, he2, rfl⟩
        · have : relpath (pjoin fi2.path fi2.file) rroot = get_canonical_name fi2 rroot := rfl
          rw [this, (h3 fi2 hsnd).1, hek]

theorem leftOnlyKeyFinset_eq (lroot : String) (lfis : List FileInfo) (rroot : String)
    (rfis : List FileInfo) :
    leftOnlyKeyFinset lroot lfis rroot rfis
      = treeKeyFinset lroot lfis \ treeKeyFinset rroot rfis := by
  ext k
  rw [leftOnlyKeyFinset, List.mem_toFinset, leftOnlyKeys_mem, Finset.mem_sdiff,
    mem_treeKeyFinset, mem_treeKeyFinset]

theorem rightOnlyKeyFinset_eq (lroot : String) (lfis : List FileInfo) (rroot : String)
    (rfis : List FileInfo) :
    rightOnlyKeyFinset lroot lfis rroot rfis
      = treeKeyFinset rroot rfis \ treeKeyFinset lroot lfis := by
  ext k
  rw [rightOnlyKeyFinset, List.mem_toFinset, rightOnlyKeys_mem, Finset.mem_sdiff,
    mem_treeKeyFinset, mem_treeKeyFinset]

theorem bothKeyFinset_eq (lroot : String) (lfis : List FileInfo) (rroot : String)
    (rfis : List FileInfo) :
    bothKeyFinset lroot lfis rroot rfis
      = treeKeyFinset lroot lfis ∩ treeKeyFinset rroot rfis := by
  ext k
  rw [bothKeyFinset, List.mem_toFinset, bothKeys_mem, Finset.mem_inter,
    mem_treeKeyFinset, mem_treeKeyFinset]

theorem buildFileMap_no_bothNone (lroot : String) (lfis : List FileInfo) (rroot : String)
    (rfis : List FileInfo) :
    ∀ p ∈ (buildFileMap lroot lfis rroot rfis).map Prod.snd,
      p ≠ ((none : Option FileInfo), (none : Option FileInfo)) := by
  obtain ⟨hnd, hkeys, hent⟩ := buildFileMap_inv lroot rroot lfis rfis
  intro p hp hc
  obtain ⟨e, he, hpe⟩ := List.mem_map.mp hp
  obtain ⟨h1, h2, h3, h4⟩ := hent e he
  have hk : e.1 ∈ mapKeys (buildFileMap lroot lfis rroot rfis) :=
    List.mem_map_of_mem _ he
  rcases (hkeys e.1).mp hk with hL | hR
  · exact h2 (by rw [hpe, hc]) hL
  · exact h4 (by rw [hpe, hc]) hR

theorem classifySlots_length (ps : List MergeSlot)
    (h : ∀ p ∈ ps, p ≠ ((none : Option FileInfo), (none : Option FileInfo))) :
    (classifySlots ps).1.length + (classifySlots ps).2.1.length
      + (classifySlots ps).2.2.length = ps.length := by
  induction ps with
  | nil => rfl
  | cons p rest ih =>
    have hr := ih (fun q hq => h q (List.mem_cons_of_mem _ hq))
    rcases p with ⟨_ | fi1, _ | fi2⟩
    · exact absurd rfl (h (none, none) (List.mem_cons_self _ _))
    · simp only [classifySlots, List.length_cons]; omega
    · simp only [classifySlots, List.length_cons]; omega
    · simp only [classifySlots, List.length_cons]; omega

theorem buildFileMap_length_eq_card (lroot : String) (lfis : List FileInfo) (rroot : String)
    (rfis : List FileInfo) :
    (buildFileMap lroot lfis rroot rfis).length
      = (treeKeyFinset lroot lfis ∪ treeKeyFinset rroot rfis).card := by
  obtain ⟨hnd, hkeys, _⟩ := buildFileMap_inv lroot rroot lfis rfis
  have h1 : (mapKeys (buildFileMap lroot lfis rroot rfis)).toFinset
      = treeKeyFinset lroot lfis ∪ treeKeyFinset rroot rfis := by
    ext k
    rw [List.mem_toFinset, hkeys k, Finset.mem_union, mem_treeKeyFinset, mem_treeKeyFinset]
  have h2 : (buildFileMap lroot lfis rroot rfis).length
      = (mapKeys (buildFileMap lroot lfis rroot rfis)).length := by
    simp [mapKeys]
  rw [h2, ← List.toFinset_card_of_nodup hnd, h1]

theorem total_by_sum_eq_card (lroot : String) (lfis : List FileInfo) (rroot : String)
    (rfis : List FileInfo) :
    total_by_sum lroot lfis rroot rfis
      = (treeKeyFinset lroot lfis ∪ treeKeyFinset rroot rfis).card := by
  have h1 := classifySlots_length ((buildFileMap lroot lfis rroot rfis).map Prod.snd)
    (buildFileMap_no_bothNone lroot lfis rroot rfis)
  rw [total_by_sum, left_only, right_only, both_bucket, merge_buckets] at *
  rw [List.length_map] at h1
  rw [h1, buildFileMap_length_eq_card]

theorem total_by_len_eq_card (lroot : String) (lfis : List FileInfo) (rroot : String)
    (rfis : List FileInfo) :
    total_by_len lroot lfis rroot rfis
      = (treeKeyFinset lroot lfis ∪ treeKeyFinset rroot rfis).card := by
  rw [total_by_len]
  have h2 : (mapKeys (buildFileMap lroot lfis rroot rfis)).length
      = (buildFileMap lroot lfis rroot rfis).length := by simp [mapKeys]
  rw [h2, buildFileMap_length_eq_card]

/-! ## Helper lemmas: the ignore filter and the `\.tmp$` pattern -/

theorem filterOutFn_false_iff (ignore_list : List String) (path filename : String) :
    filterOutFn ignore_list path filename = false ↔
      ∃ pat ∈ ignore_list, reSearch pat (pjoin path filename) = true := by
  simp [filterOutFn]

theorem parsePat_tmp :
    parsePat "\\.tmp$".data
      = [RTok.lit '.', RTok.lit 't', RTok.lit 'm', RTok.lit 'p', RTok.eol] := by
  rfl

theorem matchToks_tmp (cs : List Char) (a : Bool) :
    matchToks [RTok.lit '.', RTok.lit 't', RTok.lit 'm', RTok.lit 'p', RTok.eol] cs a = true
      ↔ cs = ['.', 't', 'm', 'p'] := by
  rcases cs with _ | ⟨c1, _ | ⟨c2, _ | ⟨c3, _ | ⟨c4, _ | ⟨c5, rest⟩⟩⟩⟩⟩ <;>
    simp [matchToks] <;> aesop

theorem matchFrom_tmp (cs : List Char) (a : Bool) :
    matchFrom [RTok.lit '.', RTok.lit 't', RTok.lit 'm', RTok.lit 'p', RTok.eol] cs a = true
      ↔ hasSuffix ['.', 't', 'm', 'p'] cs = true := by
  induction cs generalizing a with
  | nil => simp [matchFrom, hasSuffix, matchToks_tmp]
  | cons c rest ih =>
    simp only [matchFrom, hasSuffix, Bool.or_eq_true, matchToks_tmp, ih, beq_iff_eq]

theorem reSearch_tmp (s : String) :
    reSearch "\\.tmp$" s = true ↔ hasSuffix ".tmp".data s.data = true := by
  rw [reSearch, parsePat_tmp, matchFrom_tmp]

/-! ## Helper lemmas: merging against an empty right enumeration -/

theorem selRight_of_none (p : MergeSlot) (h : p.2 = none) : selRight p = none := by
  rcases p with ⟨_ | a, _ | b⟩ <;> simp_all [selRight]

theorem selBoth_of_none (p : MergeSlot) (h : p.2 = none) : selBoth p = none := by
  rcases p with ⟨_ | a, _ | b⟩ <;> simp_all [selBoth]

theorem merge_empty_right (lroot : String) (lfis : List FileInfo) (rroot : String) :
    right_only lroot lfis rroot [] = [] ∧ both_bucket lroot lfis rroot [] = [] := by
  obtain ⟨hnd, hkeys, hent⟩ := buildFileMap_inv lroot rroot lfis []
  have hsnd : ∀ e ∈ buildFileMap lroot lfis rroot [], e.2.2 = none := by
    intro e he
    obtain ⟨h1, h2, h3, h4⟩ := hent e he
    cases h : e.2.2 with
    | none => rfl
    | some fi => exact absurd (h3 fi h).2 (List.not_mem_nil fi)
  constructor
  · rw [right_only_eq]
    apply List.filterMap_eq_nil_iff.mpr
    intro e he
    exact selRight_of_none e.2 (hsnd e he)
  · rw [both_bucket_eq]
    apply List.filterMap_eq_nil_iff.mpr
    intro e he
    exact selBoth_of_none e.2 (hsnd e he)

/-! ## Claim theorems -/

/-- C1: for every pair of tree enumerations, `FolderMerger.merge` partitions
the union of the two trees' canonical paths: the three buckets are pairwise
disjoint by canonical path, and the bucket sizes sum to the number of
distinct canonical paths in the union, so the printed `Total (by len)`
equals `Total (by sum)`. -/
theorem C1_merge_partitions (lroot rroot : String) (lfis rfis : List FileInfo) :
    leftOnlyKeyFinset lroot lfis rroot rfis ∩ rightOnlyKeyFinset lroot lfis rroot rfis = ∅ ∧
    leftOnlyKeyFinset lroot lfis rroot rfis ∩ bothKeyFinset lroot lfis rroot rfis = ∅ ∧
    rightOnlyKeyFinset lroot lfis rroot rfis ∩ bothKeyFinset lroot lfis rroot rfis = ∅ ∧
    total_by_sum lroot lfis rroot rfis
      = (treeKeyFinset lroot lfis ∪ treeKeyFinset rroot rfis).card ∧
    total_by_len lroot lfis rroot rfis = total_by_sum lroot lfis rroot rfis := by
  rw [leftOnlyKeyFinset_eq, rightOnlyKeyFinset_eq, bothKeyFinset_eq,
    total_by_sum_eq_card, total_by_len_eq_card]
  refine ⟨?_, ?_, ?_, rfl, rfl⟩
  · ext k; simp only [Finset.mem_inter, Finset.mem_sdiff, Finset.not_mem_empty, iff_false]
    tauto
  · ext k; simp only [Finset.mem_inter, Finset.mem_sdiff, Finset.not_mem_empty, iff_false]
    tauto
  · ext k; simp only [Finset.mem_inter, Finset.mem_sdiff, Finset.not_mem_empty, iff_false]
    tauto

/-- C2: the canonical-path sets of the buckets computed by
`FolderMerger.merge` match set semantics: `leftOnly = leftKeys - rightKeys`,
`rightOnly = rightKeys - leftKeys`, `both = leftKeys ∩ rightKeys`. -/
theorem C2_merge_set_semantics (lroot rroot : String) (lfis rfis : List FileInfo) :
    leftOnlyKeyFinset lroot lfis rroot rfis
      = treeKeyFinset lroot lfis \ treeKeyFinset rroot rfis ∧
    rightOnlyKeyFinset lroot lfis rroot rfis
      = treeKeyFinset rroot rfis \ treeKeyFinset lroot lfis ∧
    bothKeyFinset lroot lfis rroot rfis
      = treeKeyFinset lroot lfis ∩ treeKeyFinset rroot rfis :=
  ⟨leftOnlyKeyFinset_eq lroot lfis rroot rfis,
   rightOnlyKeyFinset_eq lroot lfis rroot rfis,
   bothKeyFinset_eq lroot lfis rroot rfis⟩

/-- C3: in `main`, when an ignore filter exists it is attached to the left
crawler twice — the second `add_filter` call names `fs_left` instead of
`fs_right` — and the right crawler's filter chain stays empty for every
possible ignore-filter argument. -/
theorem C3_ignore_filter_never_reaches_right (leftRoot rightRoot : String)
    (f : String → String → Bool) :
    (mainCrawlers leftRoot rightRoot (some f)).1.filters = [f, f] ∧
    (mainCrawlers leftRoot rightRoot (some f)).2.filters = [] ∧
    ∀ g : Option (String → String → Bool),
      (mainCrawlers leftRoot rightRoot g).2.filters = [] := by
  refine ⟨rfl, rfl, ?_⟩
  intro g
  cases g <;> rfl

/-- C4's counterexample: in the spec scenario (left tree `a.txt`,
`shared/b.txt`; right tree `shared/b.txt`, `c.txt`, walked from the roots
`left` and `right`), the file `shared/b.txt` is present in both trees, yet
its canonical path is NOT an element of the `both` bucket: `merge` stores
`os.path.join(t[1].path, t[1].file)` — the right tree's full path
`right/shared/b.txt` — not the canonical path. -/
theorem C4_counterexample :
    "shared/b.txt" ∈ canonImg "left" demoLeftFis ∧
    "shared/b.txt" ∈ canonImg "right" demoRightFis ∧
    "shared/b.txt" ∉ both_bucket "left" demoLeftFis "right" demoRightFis ∧
    both_bucket "left" demoLeftFis "right" demoRightFis = ["right/shared/b.txt"] := by
  refine ⟨?_, ?_, ?_, ?_⟩ <;> decide

/-- C4 amended: for every path present in both trees, the `both` bucket
contains the right tree's full path for that file (relativizing the bucket's
entries against the right root yields exactly the canonical-path
intersection); in the scenario the bucket equals `{right/shared/b.txt}`,
which relativizes to `shared/b.txt`, with left-only `{a.txt}`, right-only
`{c.txt}` and both totals equal to 3. -/
theorem C4_both_bucket_amended :
    (∀ (lroot rroot : String) (lfis rfis : List FileInfo),
      bothKeyFinset lroot lfis rroot rfis
        = treeKeyFinset lroot lfis ∩ treeKeyFinset rroot rfis) ∧
    both_bucket "left" demoLeftFis "right" demoRightFis = ["right/shared/b.txt"] ∧
    relpath "right/shared/b.txt" "right" = "shared/b.txt" ∧
    (left_only "left" demoLeftFis "right" demoRightFis).map
      (fun fi => get_canonical_name fi "left") = ["a.txt"] ∧
    (right_only "left" demoLeftFis "right" demoRightFis).map
      (fun fi => get_canonical_name fi "right") = ["c.txt"] ∧
    total_by_sum "left" demoLeftFis "right" demoRightFis = 3 ∧
    total_by_len "left" demoLeftFis "right" demoRightFis = 3 := by
  refine ⟨fun lroot rroot lfis rfis => bothKeyFinset_eq lroot lfis rroot rfis,
    ?_, ?_, ?_, ?_, ?_, ?_⟩ <;> decide

/-- C5 names a code bug: the claim says every enabled bucket is sorted
case-insensitively by full path before display, but the `show_both` branch
sorts a list of plain strings with the key
`lambda li: os.path.join(li.path, li.file).lower()`, and `li.path` on a
`str` raises `AttributeError`, so a non-empty `both` bucket is never
displayed at all.  Evaluated here at the spec scenario, whose `both` bucket
is non-empty. -/
theorem C5_show_both_display_crashes :
    both_bucket "left" demoLeftFis "right" demoRightFis = ["right/shared/b.txt"] ∧
    sortedBothForDisplay (both_bucket "left" demoLeftFis "right" demoRightFis)
      = Except.error "AttributeError: str object has no attribute path" := by
  refine ⟨by decide, by rfl⟩

/-- C6: an empty ignore list yields no filter predicate (`None`), attaching
it leaves the crawler unchanged, and the resulting enumeration contains
exactly every file of the walk — identical to a crawler with no filter
chain at all. -/
theorem C6_empty_ignore_list_is_noop (root : String) (fs : List (String × DirTree))
    (stat : String → Nat) :
    filter_out_ignored_files [] = none ∧
    (FolderCrawler.mk root []).add_filter (filter_out_ignored_files [])
      = FolderCrawler.mk root [] ∧
    ((FolderCrawler.mk root []).add_filter (filter_out_ignored_files [])).stat_files fs stat
      = (FolderCrawler.mk root []).stat_files fs stat ∧
    ((FolderCrawler.mk root []).add_filter (filter_out_ignored_files [])).iter_files fs
      = (osWalkTop fs root).flatMap (fun pf => pf.2.map (fun fname => (pf.1, fname))) := by
  refine ⟨rfl, rfl, rfl, ?_⟩
  simp [FolderCrawler.iter_files, FolderCrawler.runFilterChain, FolderCrawler.add_filter,
    filter_out_ignored_files, List.filter_true]

/-- C7: for a non-empty ignore list the constructed predicate excludes a
file (returns `false`) exactly when some pattern matches somewhere in the
joined directory-plus-filename string, and includes it otherwise; the
pattern `\.tmp$` excludes exactly the files whose full path ends in
`.tmp`. -/
theorem C7_ignore_predicate (ignore_list : List String) (path filename : String)
    (h : ignore_list ≠ []) :
    filter_out_ignored_files ignore_list = some (filterOutFn ignore_list) ∧
    (filterOutFn ignore_list path filename = false ↔
      ∃ pat ∈ ignore_list, reSearch pat (pjoin path filename) = true) ∧
    (filterOutFn ["\\.tmp$"] path filename = false ↔
      hasSuffix ".tmp".data (pjoin path filename).data = true) := by
  refine ⟨?_, filterOutFn_false_iff ignore_list path filename, ?_⟩
  · rw [filter_out_ignored_files, if_pos]
    exact List.length_pos.mpr h
  · rw [filterOutFn_false_iff, ← reSearch_tmp]
    simp

/-- Witness for C7 at the ignore list `["\.tmp$"]` and the file
`src/a.tmp`. -/
theorem C7_ignore_predicate_witness :
    (["\\.tmp$"] : List String) ≠ [] ∧
    (filter_out_ignored_files ["\\.tmp$"] = some (filterOutFn ["\\.tmp$"]) ∧
     (filterOutFn ["\\.tmp$"] "src" "a.tmp" = false ↔
       ∃ pat ∈ (["\\.tmp$"] : List String),
         reSearch pat (pjoin "src" "a.tmp") = true) ∧
     (filterOutFn ["\\.tmp$"] "src" "a.tmp" = false ↔
       hasSuffix ".tmp".data (pjoin "src" "a.tmp").data = true)) :=
  ⟨by decide, C7_ignore_predicate ["\\.tmp$"] "src" "a.tmp" (by decide)⟩

/-- C8: reconciliation is symmetric under swapping the two trees, at the
level of canonical-path sets: `leftOnly(L,R) = rightOnly(R,L)`,
`rightOnly(L,R) = leftOnly(R,L)` and `both(L,R) = both(R,L)`. -/
theorem C8_merge_symmetric (lroot rroot : String) (lfis rfis : List FileInfo) :
    leftOnlyKeyFinset lroot lfis rroot rfis = rightOnlyKeyFinset rroot rfis lroot lfis ∧
    rightOnlyKeyFinset lroot lfis rroot rfis = leftOnlyKeyFinset rroot rfis lroot lfis ∧
    bothKeyFinset lroot lfis rroot rfis = bothKeyFinset rroot rfis lroot lfis := by
  rw [leftOnlyKeyFinset_eq, rightOnlyKeyFinset_eq, bothKeyFinset_eq,
    leftOnlyKeyFinset_eq, rightOnlyKeyFinset_eq, bothKeyFinset_eq,
    Finset.inter_comm]
  exact ⟨rfl, rfl, rfl⟩

/-- C9's counterexample: with only the root `left` existing, a run whose
right root is the nonexistent `missing` does NOT fail before enumeration:
`os.walk` (default `onerror=None`) swallows the error and yields nothing,
the crawler enumerates zero files, and `merge` completes normally, treating
the missing root exactly as an empty tree. -/
theorem C9_counterexample :
    resolveRoot demoFS "missing" = none ∧
    osWalkTop demoFS "missing" = [] ∧
    crawlFiles demoFS demoStat "missing" = [] ∧
    merge_buckets "left" demoLeftFis "missing" (crawlFiles demoFS demoStat "missing")
      = (demoLeftFis, [], []) := by
  refine ⟨rfl, rfl, rfl, by decide⟩

/-- C9 amended: neither `main` nor the crawler validates its roots; a root
that does not exist or is not a directory produces an empty walk and an
empty enumeration, and a merge against it completes with empty `right_only`
and `both` buckets — the run proceeds, treating the bad root as an empty
tree, instead of aborting. -/
theorem C9_missing_root_amended (fs : List (String × DirTree)) (stat : String → Nat)
    (root : String) (fl : List (String → String → Bool)) (lroot : String)
    (lfis : List FileInfo) (h : resolveRoot fs root = none) :
    osWalkTop fs root = [] ∧
    (FolderCrawler.mk root fl).stat_files fs stat = [] ∧
    right_only lroot lfis root ((FolderCrawler.mk root fl).stat_files fs stat) = [] ∧
    both_bucket lroot lfis root ((FolderCrawler.mk root fl).stat_files fs stat) = [] := by
  have hwalk : osWalkTop fs root = [] := by
    rw [osWalkTop, h]
  have hstat : (FolderCrawler.mk root fl).stat_files fs stat = [] := by
    rw [FolderCrawler.stat_files, FolderCrawler.iter_files, hwalk]
    rfl
  refine ⟨hwalk, hstat, ?_, ?_⟩
  · rw [hstat]
    exact (merge_empty_right lroot lfis root).1
  · rw [hstat]
    exact (merge_empty_right lroot lfis root).2

/-- Witness for C9's amended theorem at the scenario filesystem and the
missing root `missing`. -/
theorem C9_missing_root_witness :
    resolveRoot demoFS "missing" = none ∧
    (osWalkTop demoFS "missing" = [] ∧
     (FolderCrawler.mk "missing" []).stat_files demoFS demoStat = [] ∧
     right_only "left" demoLeftFis "missing"
       ((FolderCrawler.mk "missing" []).stat_files demoFS demoStat) = [] ∧
     both_bucket "left" demoLeftFis "missing"
       ((FolderCrawler.mk "missing" []).stat_files demoFS demoStat) = []) :=
  ⟨rfl, C9_missing_root_amended demoFS demoStat "missing" [] "left" demoLeftFis rfl⟩

/-- C10: `add_filter` with a non-callable argument — in particular the
`None` returned by `filter_out_ignored_files` for an empty ignore list —
leaves the filter chain unchanged, returns the crawler itself, and (being a
total function in this model, mirroring the guarded Python code that cannot
raise) leaves the subsequent enumeration unaffected. -/
theorem C10_add_filter_non_callable (c : FolderCrawler) (fs : List (String × DirTree))
    (stat : String → Nat) :
    c.add_filter none = c ∧
    c.add_filter (filter_out_ignored_files []) = c ∧
    (c.add_filter none).filters = c.filters ∧
    (c.add_filter none).stat_files fs stat = c.stat_files fs stat :=
  ⟨rfl, rfl, rfl, rfl⟩
